import Mathlib

/-!
Verification of `riemax/numerical/curves.py`: constrained cubic splines
parameterised by a null-space basis.

The array code is embedded shallowly over `ℚ` (exact arithmetic standing in
for the float arithmetic of the source; every constraint entry and every
query used below is rational).  Arrays become functions out of `Fin`,
`jnp.einsum` contractions become `Matrix` products or explicit `Finset`
sums, and shape-dependent failures of the array library are modelled with
`Option`/`Bool`-valued shape checks.

The one numerical primitive the source calls that cannot be embedded as an
executable function is `jnp.linalg.svd` (line 89).  The code uses it only
through `basis = vt.T[:, s.size:]`: the trailing right-singular vectors of
the full SVD of the constraint matrix.  For the constraint matrix of
`num_edges = n ≥ 1` there are `3n - 1` rows and `4n` columns, so
`s.size = min (3n-1) (4n) = 3n-1` and the extracted columns are the
right-singular vectors of index `≥ 3n-1 ≥ rank`; every such column is
annihilated by the constraint matrix, and distinct columns of the orthogonal
factor `V` are orthonormal.  Theorems about the basis therefore quantify
over any matrix satisfying these guarantees (`NullBasis`, plus linear
independence of the columns where it is needed, which follows from their
orthonormality).
-/

namespace Riemax

open Matrix

/-- Interior knot `i` (0-indexed) of `num_edges = n` segments:
`jnp.linspace(0, 1, n + 1)[1:-1]` has entries `(i+1)/n` (line 60). -/
def knot (n i : ℕ) : ℚ := ((i : ℚ) + 1) / (n : ℚ)

/-- Row content for the value-continuity constraints: `[1, t, t², t³]` (line 69). -/
def zerothFill (t : ℚ) : Fin 4 → ℚ := ![1, t, t ^ 2, t ^ 3]

/-- Row content for the first-derivative constraints: `[0, 1, 2t, 3t²]` (line 76). -/
def firstFill (t : ℚ) : Fin 4 → ℚ := ![0, 1, 2 * t, 3 * t ^ 2]

/-- Row content the source uses for the second-derivative constraints:
`[0.0, 0.0, 6.0 * t[i], 2.0]` (line 83), transcribed exactly as written. -/
def secondFill (t : ℚ) : Fin 4 → ℚ := ![0, 0, 6 * t, 2]

/-- One continuity row: `fill` on segment `i`'s 4-entry coefficient block and its
negation on segment `i+1`'s block, zero elsewhere (lines 66-85). -/
def contRow (n : ℕ) (fill : ℚ → Fin 4 → ℚ) (i : ℕ) : Fin (4 * n) → ℚ := fun c =>
  if h : 4 * i ≤ (c : ℕ) ∧ (c : ℕ) < 4 * i + 4 then
    fill (knot n i) ⟨(c : ℕ) - 4 * i, by omega⟩
  else if h2 : 4 * i + 4 ≤ (c : ℕ) ∧ (c : ℕ) < 4 * i + 8 then
    -(fill (knot n i) ⟨(c : ℕ) - (4 * i + 4), by omega⟩)
  else 0

/-- First endpoint row: `end_points.at[0, 0].set(1.0)` (line 63). -/
def endRow0 (n : ℕ) : Fin (4 * n) → ℚ := fun c => if (c : ℕ) = 0 then 1 else 0

/-- Second endpoint row: `end_points.at[1, -4:].set(1.0)`, i.e. `1` on the last
four positions (line 64). -/
def endRow1 (n : ℕ) : Fin (4 * n) → ℚ := fun c => if 4 * n - 4 ≤ (c : ℕ) then 1 else 0

/-- The stacked constraint matrix of `_compute_basis` for `num_edges = n`
(line 87): 2 endpoint rows, then `n - 1` value-continuity rows, `n - 1`
first-derivative rows and `n - 1` rows built from `secondFill`. -/
def constraints (n : ℕ) : Matrix (Fin (3 * n - 1)) (Fin (4 * n)) ℚ :=
  Matrix.of fun r c =>
    if (r : ℕ) = 0 then endRow0 n c
    else if (r : ℕ) = 1 then endRow1 n c
    else if (r : ℕ) < 2 + (n - 1) then contRow n zerothFill ((r : ℕ) - 2) c
    else if (r : ℕ) < 2 + 2 * (n - 1) then contRow n firstFill ((r : ℕ) - (2 + (n - 1))) c
    else contRow n secondFill ((r : ℕ) - (2 + 2 * (n - 1))) c

/-- What line 90 (`basis = vt.T[:, s.size:]`) guarantees about the basis
returned by `_compute_basis`: every column, being a right-singular vector of
index at least `s.size = 3n - 1 ≥ rank`, is annihilated by the constraint
matrix.  (Orthonormality of the columns is treated separately, see
`svdNullBasis`.) -/
def NullBasis (n : ℕ) (B : Matrix (Fin (4 * n)) (Fin (n + 1)) ℚ) : Prop :=
  ∀ j, (constraints n).mulVec (fun i => B i j) = 0

instance (n : ℕ) (B : Matrix (Fin (4 * n)) (Fin (n + 1)) ℚ) : Decidable (NullBasis n B) := by
  unfold NullBasis
  infer_instance

/-- `_compute_coefficients` (lines 95-109): contract the basis with the
parameters (`einsum '...nc, ...cd -> ...nd'` is a matrix product) and reshape
the flat `4n` axis into `(num_edges, 4)` blocks. -/
def computeCoefficients {n np D : ℕ} (B : Matrix (Fin (4 * n)) (Fin np) ℚ)
    (P : Matrix (Fin np) (Fin D) ℚ) : Fin n → Fin 4 → Fin D → ℚ :=
  fun k j d => (B * P) ⟨4 * (k : ℕ) + (j : ℕ), by omega⟩ d

/-- `_eval_straight_line` (line 121): `p + (q - p) * t`, per ambient dimension. -/
def evalStraightLine (D : ℕ) (t : ℚ) (p q : Fin D → ℚ) : Fin D → ℚ :=
  fun d => p d + (q d - p d) * t

/-- Segment selection of `_eval_polynomials` (line 137):
`jnp.floor(t * num_edges).clip(0, num_edges - 1)`. -/
def segIdx (n : ℕ) (t : ℚ) : ℕ :=
  (min (max ⌊t * (n : ℚ)⌋ 0) ((n : ℤ) - 1)).toNat

theorem segIdx_lt {n : ℕ} (hn : 1 ≤ n) (t : ℚ) : segIdx n t < n := by
  have h1 : min (max ⌊t * (n : ℚ)⌋ 0) ((n : ℤ) - 1) ≤ (n : ℤ) - 1 := min_le_right _ _
  have h2 : (1 : ℤ) ≤ (n : ℤ) := by exact_mod_cast hn
  unfold segIdx
  omega

/-- `_eval_polynomials` (lines 124-143): select the segment of the query time,
raise the raw global time to the powers `0 .. degree-1` and contract with the
selected segment's coefficients.  The `dite` totalises the array indexing; for
`num_edges ≥ 1` the selected index is always in bounds (`segIdx_lt`), matching
the source. -/
def evalPolynomials (n deg D : ℕ) (coeffs : Fin n → Fin deg → Fin D → ℚ) (t : ℚ) :
    Fin D → ℚ :=
  if h : segIdx n t < n then
    fun d => ∑ j : Fin deg, t ^ (j : ℕ) * coeffs ⟨segIdx n t, h⟩ j d
  else fun _ => 0

/-- The curve descriptor `CubicSpline` (lines 12-35): start point `p`, end
point `q` and the null-space basis.  Here `n` is `num_edges`;
`num_nodes = n + 1` (`from_nodes` sets `num_edges = num_nodes - 1`, and the
contraction in `_compute_coefficients` together with
`init_params`' `zeros((num_nodes, D))` forces the basis to have `num_nodes`
columns). -/
structure CubicSpline (n D : ℕ) where
  p : Fin D → ℚ
  q : Fin D → ℚ
  basis : Matrix (Fin (4 * n)) (Fin (n + 1)) ℚ

/-- `CubicSpline.init_params` (line 38): `jnp.zeros((num_nodes, D))`. -/
def initParams (n D : ℕ) (_s : CubicSpline n D) : Matrix (Fin (n + 1)) (Fin D) ℚ := 0

/-- `_curve` (lines 146-163): straight line between the endpoints plus the
piecewise-cubic perturbation obtained from the projected coefficients. -/
def curve (n D : ℕ) (t : ℚ) (P : Matrix (Fin (n + 1)) (Fin D) ℚ) (s : CubicSpline n D) :
    Fin D → ℚ :=
  fun d => evalStraightLine D t s.p s.q d +
    evalPolynomials n 4 D (computeCoefficients s.basis P) t d

/-- `jnp.arange(1, 4)` = `[1, 2, 3]` (line 179); `reshape(1, 3, 1)` aligns it
along the degree axis. -/
def arange14 : Fin 3 → ℚ := fun j => ((j : ℕ) : ℚ) + 1

/-- `_curve_t` (lines 166-183): scale the shifted coefficient slice
`coefficients[:, 1:, :]` elementwise by `arange(1, 4)` along the degree axis
and evaluate at degree 3, adding the slope `q - p` of the straight line. -/
def curve_t (n D : ℕ) (t : ℚ) (P : Matrix (Fin (n + 1)) (Fin D) ℚ) (s : CubicSpline n D) :
    Fin D → ℚ :=
  fun d => s.q d - s.p d +
    evalPolynomials n 3 D
      (fun k j d => computeCoefficients s.basis P k ⟨(j : ℕ) + 1, by omega⟩ d * arange14 j)
      t d

/-- Modelled from the spec: `riemax.manifold.types.TangentSpace` is imported by
the source but its module is not part of this repository snapshot; §6 of the
spec describes it as "a simple two-field carrier (`point`, `vector`)". -/
structure TangentSpace (D : ℕ) where
  point : Fin D → ℚ
  vector : Fin D → ℚ

/-- `CubicSpline.evaluate` (lines 40-44): package `_curve` and `_curve_t`. -/
def evaluate (n D : ℕ) (s : CubicSpline n D) (t : ℚ) (P : Matrix (Fin (n + 1)) (Fin D) ℚ) :
    TangentSpace D :=
  ⟨curve n D t P s, curve_t n D t P s⟩

/-- Two axis lengths are compatible under numpy/JAX broadcasting iff they are
equal or one of them is `1`. -/
def bcastOk (a b : ℕ) : Bool := a == b || a == 1 || b == 1

/-- `_curve_tt` (lines 186-201).  Line 199 multiplies the slice
`coefficients[:, 2:, :]`, of axis sizes `(num_edges, 2, D)`, elementwise by
`jnp.arange(1, 4).reshape(1, 3, 1)`, of axis sizes `(1, 3, 1)`; the result is
guarded by the broadcasting compatibility of each axis pair.  (When the guard
holds the axis lengths agree, and the value is the degree-axis-aligned
product, evaluated at degree 2 as in line 201.) -/
def curve_tt (n D : ℕ) (t : ℚ) (P : Matrix (Fin (n + 1)) (Fin D) ℚ) (s : CubicSpline n D) :
    Option (Fin D → ℚ) :=
  if bcastOk n 1 && bcastOk 2 3 && bcastOk D 1 then
    some (fun d => evalPolynomials n 2 D
      (fun k j d => computeCoefficients s.basis P k ⟨(j : ℕ) + 2, by omega⟩ d *
        (((j : ℕ) : ℚ) + 1))
      t d)
  else none

/-- Written from the spec's words (§4.4, velocity): the derivative coefficients
are `d_coeffs[:, j, :] = coefficients[:, j+1, :] * (j+1)` for `j = 0, 1, 2`. -/
def dCoeffsSpec (n D : ℕ) (coeffs : Fin n → Fin 4 → Fin D → ℚ) :
    Fin n → Fin 3 → Fin D → ℚ :=
  fun k j d => coeffs k ⟨(j : ℕ) + 1, by omega⟩ d * (((j : ℕ) : ℚ) + 1)

/-- Written from the spec's words (§4.4, velocity):
`(q - p) + evaluate_polynomial(t, num_edges, d_coeffs, degree=3)`. -/
def specVelocity (n D : ℕ) (p q : Fin D → ℚ) (B : Matrix (Fin (4 * n)) (Fin (n + 1)) ℚ)
    (P : Matrix (Fin (n + 1)) (Fin D) ℚ) (t : ℚ) : Fin D → ℚ :=
  fun d => q d - p d +
    evalPolynomials n 3 D (dCoeffsSpec n D (computeCoefficients B P)) t d

/-- The extraction `basis = vt.T[:, s.size:]` of line 90, as a function of the
full right-singular-vector factor `V = vt.T` returned by the SVD: for
`num_edges = n` the constraint matrix has `3n - 1` rows and `4n` columns, so
`s.size = 3n - 1` and the basis keeps the trailing `4n - (3n - 1)` columns. -/
def svdNullBasis (n : ℕ) (V : Matrix (Fin (4 * n)) (Fin (4 * n)) ℚ) :
    Matrix (Fin (4 * n)) (Fin (4 * n - (3 * n - 1))) ℚ :=
  fun i j => V i ⟨(3 * n - 1) + (j : ℕ), by omega⟩

/-- `jnp.zeros(shape)` constructs an array iff no dimension is negative. -/
def zerosOk (dims : List ℤ) : Bool := dims.all (fun d => decide (0 ≤ d))

/-- Shape-level model of `_compute_basis(num_edges)`: line 62 constructs
`zeros((2, 4 * num_edges))` and lines 66/73/80 construct
`zeros((num_edges - 1, 4 * num_edges))`; the function runs to completion iff
every such construction succeeds. -/
def computeBasisRuns (numEdges : ℤ) : Bool :=
  zerosOk [2, 4 * numEdges] && zerosOk [numEdges - 1, 4 * numEdges]

/-- Shape-level model of `CubicSpline.from_nodes(p, q, num_nodes)` (lines
32-35), which calls `_compute_basis(num_nodes - 1)`. -/
def fromNodesRuns (numNodes : ℤ) : Bool := computeBasisRuns (numNodes - 1)

/-- Shape-level model of numpy `expand_dims(x, axis)` for a nonnegative
`axis`: valid iff `axis ≤ rank x`, inserting a unit axis there. -/
def expandDimsShape (shape : List ℕ) (axis : ℕ) : Option (List ℕ) :=
  if axis ≤ shape.length then some (shape.take axis ++ 1 :: shape.drop axis) else none

/-- Both `_eval_straight_line` (line 121) and `_eval_polynomials` (line 140)
apply `jnp.expand_dims(t, 1)` to the query-time argument, so `evaluate`
accepts a query time of the given shape iff that call is valid. -/
def evaluateShapeOk (tshape : List ℕ) : Bool := (expandDimsShape tshape 1).isSome

/-- C4: `_curve_tt` multiplies the coefficient slice `coefficients[:, 2:, :]`,
whose degree axis has length 2, elementwise by `jnp.arange(1, 4).reshape(1, 3, 1)`,
whose degree axis has length 3; these lengths are incompatible under
broadcasting, so the call fails on every input instead of returning the
acceleration the claim describes. -/
theorem curve_tt_always_fails (n D : ℕ) (t : ℚ) (P : Matrix (Fin (n + 1)) (Fin D) ℚ)
    (s : CubicSpline n D) : curve_tt n D t P s = none := by
  simp [curve_tt, bcastOk]

/-- C5: the velocity `_curve_t` returns (and `evaluate` exposes as the
`vector` field) is `(q - p) + evaluate_polynomial(t, num_edges, d_coeffs, 3)`
with `d_coeffs[:, j, :] = coefficients[:, j+1, :] * (j+1)` for `j = 0, 1, 2`,
the formula stated by the spec (`specVelocity`). -/
theorem curve_t_eq_specVelocity (n D : ℕ) (s : CubicSpline n D)
    (P : Matrix (Fin (n + 1)) (Fin D) ℚ) (t : ℚ) :
    (evaluate n D s t P).vector = curve_t n D t P s ∧
      curve_t n D t P s = specVelocity n D s.p s.q s.basis P t :=
  ⟨rfl, rfl⟩

/-- C8: `from_nodes` fails for every `num_nodes < 2` — for `num_nodes ≤ 0`
the `zeros((2, 4 * num_edges))` of line 62 has a negative dimension, and for
`num_nodes = 1` the `zeros((num_edges - 1, 4 * num_edges))` of line 66 does —
and it runs to completion for every `num_nodes ≥ 2`. -/
theorem fromNodes_fails_iff (m : ℤ) :
    (m < 2 → fromNodesRuns m = false) ∧ (2 ≤ m → fromNodesRuns m = true) := by
  constructor <;> intro hm <;>
    simp only [fromNodesRuns, computeBasisRuns, zerosOk, List.all_cons, List.all_nil,
      Bool.and_true, Bool.and_eq_false_iff, Bool.and_eq_true, decide_eq_false_iff_not,
      decide_eq_true_eq, not_le] <;> omega

/-- Witness for C8 at `num_nodes = 1` and `num_nodes = 2`. -/
theorem fromNodes_fails_iff_witness :
    fromNodesRuns 1 = false ∧ fromNodesRuns 2 = true :=
  ⟨(fromNodes_fails_iff 1).1 (by decide), (fromNodes_fails_iff 2).2 (by decide)⟩

/-- C10: the query-time argument of `evaluate` must be a rank-1 (batched)
array: `expand_dims(t, 1)` in the straight-line and polynomial evaluators is
invalid for a zero-dimensional `t`, so a bare scalar time fails while a
batched time of any length is accepted. -/
theorem scalar_time_fails :
    evaluateShapeOk [] = false ∧ ∀ b : ℕ, evaluateShapeOk [b] = true :=
  ⟨rfl, fun _ => rfl⟩

/-- C3: with the all-zero parameter matrix of `init_params`, the projected
coefficients are exactly zero, hence the polynomial perturbation is exactly
zero, hence the curve is exactly the straight-line interpolant
`p + (q - p) * t`. -/
theorem zero_params_straight_line (n D : ℕ) (hn : 1 ≤ n) (s : CubicSpline n D) (t : ℚ)
    (ht0 : 0 ≤ t) (ht1 : t ≤ 1) :
    computeCoefficients s.basis (initParams n D s) = (fun _ _ _ => 0) ∧
      evalPolynomials n 4 D (computeCoefficients s.basis (initParams n D s)) t = (fun _ => 0) ∧
      (evaluate n D s t (initParams n D s)).point = evalStraightLine D t s.p s.q := by
  have hc : computeCoefficients s.basis (initParams n D s) = (fun _ _ _ => (0 : ℚ)) := by
    funext k j d
    simp [computeCoefficients, initParams]
  refine ⟨hc, ?_, ?_⟩
  · rw [hc]
    simp [evalPolynomials]
  · funext d
    simp [evaluate, curve, hc, evalPolynomials]

/-- Witness for C3: `num_edges = 1`, `D = 1`, `p = [3]`, `q = [5]`, `t = 1/2`. -/
theorem zero_params_straight_line_witness :
    computeCoefficients (CubicSpline.mk (n := 1) (D := 1) ![3] ![5] 0).basis
        (initParams 1 1 ⟨![3], ![5], 0⟩) = (fun _ _ _ => 0) ∧
      evalPolynomials 1 4 1 (computeCoefficients (CubicSpline.mk (n := 1) (D := 1) ![3] ![5] 0).basis
        (initParams 1 1 ⟨![3], ![5], 0⟩)) (1/2) = (fun _ => 0) ∧
      (evaluate 1 1 ⟨![3], ![5], 0⟩ (1/2) (initParams 1 1 ⟨![3], ![5], 0⟩)).point =
        evalStraightLine 1 (1/2) ![3] ![5] :=
  zero_params_straight_line 1 1 (by decide) ⟨![3], ![5], 0⟩ (1/2) (by norm_num) (by norm_num)

/-- The start point of the spec's concrete scenario (§8.6). -/
def p9 : Fin 2 → ℚ := ![0, 0]

/-- The end point of the spec's concrete scenario (§8.6). -/
def q9 : Fin 2 → ℚ := ![1, 1]

/-- C9: with `num_edges = 1`, `p = [0,0]`, `q = [1,1]` and the zero parameter
matrix of shape `(2, 2)`, evaluation at `t = 1/2` gives
`point = [1/2, 1/2]` and `vector = [1, 1]`, whatever basis the SVD returned. -/
theorem concrete_evaluation (B : Matrix (Fin (4 * 1)) (Fin (1 + 1)) ℚ) :
    evaluate 1 2 ⟨p9, q9, B⟩ (1/2) 0 = ⟨![1/2, 1/2], ![1, 1]⟩ := by
  have hc : computeCoefficients B (0 : Matrix (Fin (1 + 1)) (Fin 2) ℚ) =
      (fun _ _ _ => (0 : ℚ)) := by
    funext k j d
    simp [computeCoefficients]
  simp only [evaluate, TangentSpace.mk.injEq]
  constructor <;> funext d <;>
    simp [curve, curve_t, hc, evalPolynomials, evalStraightLine] <;>
    fin_cases d <;> norm_num [p9, q9]

/-- Written from the spec's words (§4.3, open question in §9): the alternative
evaluator that renormalises the query time to a per-segment local time
`t * num_edges - segment_index` before forming the monomials.  The source does
not do this; it is defined only to witness the difference. -/
def evalPolynomialsLocal (n deg D : ℕ) (coeffs : Fin n → Fin deg → Fin D → ℚ) (t : ℚ) :
    Fin D → ℚ :=
  if h : segIdx n t < n then
    fun d => ∑ j : Fin deg,
      (t * (n : ℚ) - (segIdx n t : ℚ)) ^ (j : ℕ) * coeffs ⟨segIdx n t, h⟩ j d
  else fun _ => 0

/-- Coefficients (two segments, one ambient dimension, pure linear term) on
which the global-time and local-time evaluators disagree. -/
def c7coeffs : Fin 2 → Fin 4 → Fin 1 → ℚ := fun _ j _ => if j = 1 then 1 else 0

theorem segIdx_in_range (n k : ℕ) (hk : k < n) (t : ℚ)
    (h1 : (k : ℚ) / (n : ℚ) ≤ t) (h2 : t < ((k : ℚ) + 1) / (n : ℚ)) : segIdx n t = k := by
  have hn : 0 < (n : ℚ) := by
    have h : 0 < n := Nat.lt_of_le_of_lt (Nat.zero_le k) hk
    exact_mod_cast h
  have hfloor : ⌊t * (n : ℚ)⌋ = (k : ℤ) := by
    rw [Int.floor_eq_iff]
    rw [div_le_iff₀ hn] at h1
    rw [lt_div_iff₀ hn] at h2
    constructor
    · push_cast
      exact h1
    · push_cast
      exact h2
  have hk' : (k : ℤ) < (n : ℤ) := by exact_mod_cast hk
  unfold segIdx
  rw [hfloor]
  omega

theorem segIdx_one {n : ℕ} (hn : 1 ≤ n) : segIdx n 1 = n - 1 := by
  have hfloor : ⌊(1 : ℚ) * (n : ℚ)⌋ = (n : ℤ) := by
    rw [one_mul, Int.floor_natCast]
  have hn' : (1 : ℤ) ≤ (n : ℤ) := by exact_mod_cast hn
  unfold segIdx
  rw [hfloor]
  omega

/-- C7: `_eval_polynomials` selects segment `clip(floor(t * num_edges), 0,
num_edges - 1)` — any `t` in `[k/n, (k+1)/n)` selects segment `k`, and `t = 1`
is handled by the last segment — while the monomials are formed from the raw
global time: on a pure linear-term coefficient set the evaluator disagrees
with the per-segment local-time variant. -/
theorem segment_selection :
    (∀ (n k : ℕ), k < n → ∀ t : ℚ, (k : ℚ) / (n : ℚ) ≤ t → t < ((k : ℚ) + 1) / (n : ℚ) →
        segIdx n t = k) ∧
      (∀ n : ℕ, 1 ≤ n → segIdx n 1 = n - 1) ∧
      evalPolynomials 2 4 1 c7coeffs (3/4) ≠ evalPolynomialsLocal 2 4 1 c7coeffs (3/4) := by
  refine ⟨segIdx_in_range, fun n hn => segIdx_one hn, ?_⟩
  have hseg : segIdx 2 (3/4) = 1 :=
    segIdx_in_range 2 1 (by norm_num) (3/4) (by norm_num) (by norm_num)
  intro h
  have h0 := congrFun h 0
  simp only [evalPolynomials, evalPolynomialsLocal, hseg] at h0
  norm_num [c7coeffs, Fin.sum_univ_four] at h0

/-- Witness for C7: `t = 5/8` with two segments lies in `[1/2, 1)` and selects
segment 1; `t = 1` with three segments selects segment 2. -/
theorem segment_selection_witness : segIdx 2 (5/8) = 1 ∧ segIdx 3 1 = 2 :=
  ⟨segment_selection.1 2 1 (by decide) (5/8) (by norm_num) (by norm_num),
   segment_selection.2.1 3 (by decide)⟩

/-- C6: for `num_edges = n ≥ 1` the constraint matrix has
`2 + 3 * (n - 1) = 3n - 1` rows, so the extraction `vt.T[:, s.size:]` keeps
`4n - (3n - 1) = n + 1` trailing columns of the full right-singular factor,
and (the factor being orthogonal) those columns are orthonormal. -/
theorem basis_shape_orthonormal :
    ∀ n : ℕ, 1 ≤ n →
      (4 * n - (3 * n - 1) = n + 1) ∧
        ∀ V : Matrix (Fin (4 * n)) (Fin (4 * n)) ℚ, Vᵀ * V = 1 →
          (svdNullBasis n V)ᵀ * svdNullBasis n V = 1 := by
  intro n hn
  refine ⟨by omega, fun V hV => ?_⟩
  have key : ∀ a b : Fin (4 * n), (∑ i, V i a * V i b) = if a = b then 1 else 0 := by
    intro a b
    have h := congrFun (congrFun hV a) b
    simpa [Matrix.mul_apply, Matrix.transpose_apply, Matrix.one_apply] using h
  ext j k
  simp only [Matrix.mul_apply, Matrix.transpose_apply, svdNullBasis, Matrix.one_apply]
  rw [key]
  rcases eq_or_ne j k with h | h
  · subst h
    simp
  · rw [if_neg h, if_neg]
    intro hcon
    apply h
    have hv := congrArg Fin.val hcon
    simp only at hv
    exact Fin.ext (by omega)

/-- Witness for C6 at `n = 1` with the identity as orthogonal factor. -/
theorem basis_shape_orthonormal_witness :
    (4 * 1 - (3 * 1 - 1) = 1 + 1) ∧
      (svdNullBasis 1 1)ᵀ * svdNullBasis 1 1 = 1 :=
  ⟨(basis_shape_orthonormal 1 (by decide)).1,
   (basis_shape_orthonormal 1 (by decide)).2 1 (by simp)⟩

theorem segIdx_zero {n : ℕ} (hn : 1 ≤ n) : segIdx n 0 = 0 := by
  unfold segIdx
  rw [zero_mul, Int.floor_zero]
  have hn' : (1 : ℤ) ≤ (n : ℤ) := by exact_mod_cast hn
  omega

/-- Row 0 of the constraint matrix forces the very first flattened coefficient
to vanish: every column of a null-space basis has a zero first entry. -/
theorem basis_row0_zero {n : ℕ} (hn : 1 ≤ n) {B : Matrix (Fin (4 * n)) (Fin (n + 1)) ℚ}
    (hB : NullBasis n B) (c : Fin (n + 1)) : B ⟨0, by omega⟩ c = 0 := by
  have h := congrFun (hB c) ⟨0, by omega⟩
  simp only [Matrix.mulVec, Matrix.dotProduct, Pi.zero_apply] at h
  rw [Finset.sum_eq_single (⟨0, by omega⟩ : Fin (4 * n))] at h
  · simpa [constraints, endRow0] using h
  · intro b _ hb
    have hb' : (b : ℕ) ≠ 0 := fun hh => hb (Fin.ext hh)
    simp [constraints, endRow0, hb']
  · intro hmem
    exact absurd (Finset.mem_univ _) hmem

/-- Row 1 of the constraint matrix forces the last four flattened coefficients
(the last segment's block) to sum to zero in every column of a null-space
basis. -/
theorem basis_last_block_sum_zero {n : ℕ} (hn : 1 ≤ n)
    {B : Matrix (Fin (4 * n)) (Fin (n + 1)) ℚ} (hB : NullBasis n B) (c : Fin (n + 1)) :
    ∑ j : Fin 4, B ⟨4 * (n - 1) + (j : ℕ), by omega⟩ c = 0 := by
  have h := congrFun (hB c) ⟨1, by omega⟩
  simp only [Matrix.mulVec, Matrix.dotProduct, Pi.zero_apply] at h
  have hrow : ∀ i : Fin (4 * n), constraints n ⟨1, by omega⟩ i =
      if 4 * n - 4 ≤ (i : ℕ) then 1 else 0 := by
    intro i
    norm_num [constraints, endRow1]
  have h' : ∑ i : Fin (4 * n), (if 4 * n - 4 ≤ (i : ℕ) then B i c else 0) = 0 := by
    have hcongr : ∀ i : Fin (4 * n), (if 4 * n - 4 ≤ (i : ℕ) then B i c else 0) =
        constraints n ⟨1, by omega⟩ i * B i c := by
      intro i
      rw [hrow i]
      by_cases hc : 4 * n - 4 ≤ (i : ℕ)
      · rw [if_pos hc, if_pos hc, one_mul]
      · rw [if_neg hc, if_neg hc, zero_mul]
    rw [Finset.sum_congr rfl (fun i _ => hcongr i)]
    exact h
  have himage : ∑ i ∈ Finset.image (fun j : Fin 4 => (⟨4 * (n - 1) + (j : ℕ), by omega⟩ :
      Fin (4 * n))) Finset.univ, (if 4 * n - 4 ≤ (i : ℕ) then B i c else 0) =
      ∑ i : Fin (4 * n), (if 4 * n - 4 ≤ (i : ℕ) then B i c else 0) := by
    apply Finset.sum_subset (Finset.subset_univ _)
    intro x _ hx
    have hxlt := x.isLt
    have hnot : ¬ (4 * n - 4 ≤ (x : ℕ)) := by
      intro hle
      apply hx
      rw [Finset.mem_image]
      refine ⟨⟨(x : ℕ) - (4 * n - 4), by omega⟩, Finset.mem_univ _, ?_⟩
      apply Fin.ext
      show 4 * (n - 1) + ((x : ℕ) - (4 * n - 4)) = (x : ℕ)
      omega
    rw [if_neg hnot]
  have hinj : ∀ a ∈ (Finset.univ : Finset (Fin 4)), ∀ b ∈ (Finset.univ : Finset (Fin 4)),
      (⟨4 * (n - 1) + (a : ℕ), by omega⟩ : Fin (4 * n)) =
        (⟨4 * (n - 1) + (b : ℕ), by omega⟩ : Fin (4 * n)) → a = b := by
    intro a _ b _ hab
    have hv := congrArg Fin.val hab
    simp only at hv
    exact Fin.ext (by omega)
  have himg2 : ∑ i ∈ Finset.image (fun j : Fin 4 => (⟨4 * (n - 1) + (j : ℕ), by omega⟩ :
      Fin (4 * n))) Finset.univ, (if 4 * n - 4 ≤ (i : ℕ) then B i c else 0) =
      ∑ j : Fin 4, (if 4 * n - 4 ≤ (((fun j : Fin 4 => (⟨4 * (n - 1) + (j : ℕ), by omega⟩ :
        Fin (4 * n))) j : Fin (4 * n)) : ℕ) then B ((fun j : Fin 4 =>
        (⟨4 * (n - 1) + (j : ℕ), by omega⟩ : Fin (4 * n))) j) c else 0) :=
    Finset.sum_image hinj
  have hfin : ∑ j : Fin 4, (if 4 * n - 4 ≤ (((fun j : Fin 4 =>
      (⟨4 * (n - 1) + (j : ℕ), by omega⟩ : Fin (4 * n))) j : Fin (4 * n)) : ℕ) then
      B ((fun j : Fin 4 => (⟨4 * (n - 1) + (j : ℕ), by omega⟩ : Fin (4 * n))) j) c else 0) =
      ∑ j : Fin 4, B ⟨4 * (n - 1) + (j : ℕ), by omega⟩ c := by
    apply Finset.sum_congr rfl
    intro j _
    rw [if_pos]
    show 4 * n - 4 ≤ 4 * (n - 1) + (j : ℕ)
    omega
  rw [← hfin, ← himg2, himage, h']

/-- C1: for every descriptor with `num_nodes ≥ 2` (i.e. `num_edges = n ≥ 1`)
whose basis columns are annihilated by the constraint matrix — as the SVD
extraction guarantees — and every parameter matrix, the cubic perturbation
vanishes at `t = 0` and `t = 1`, so `evaluate` interpolates the endpoints:
`point` is `p` at `t = 0` and `q` at `t = 1`. -/
theorem endpoint_interpolation (n D : ℕ) (hn : 1 ≤ n) (s : CubicSpline n D)
    (hB : NullBasis n s.basis) (P : Matrix (Fin (n + 1)) (Fin D) ℚ) :
    evalPolynomials n 4 D (computeCoefficients s.basis P) 0 = (fun _ => 0) ∧
      evalPolynomials n 4 D (computeCoefficients s.basis P) 1 = (fun _ => 0) ∧
      (evaluate n D s 0 P).point = s.p ∧ (evaluate n D s 1 P).point = s.q := by
  have hp0 : evalPolynomials n 4 D (computeCoefficients s.basis P) 0 = (fun _ => 0) := by
    funext d
    unfold evalPolynomials
    rw [dif_pos (segIdx_lt hn 0)]
    simp only [segIdx_zero hn, Fin.sum_univ_four, Fin.val_zero, Fin.val_one,
      show ((2 : Fin 4) : ℕ) = 2 from rfl, show ((3 : Fin 4) : ℕ) = 3 from rfl,
      pow_zero, one_mul]
    norm_num
    unfold computeCoefficients
    rw [Matrix.mul_apply]
    apply Finset.sum_eq_zero
    intro cIdx _
    exact mul_eq_zero_of_left (basis_row0_zero hn hB cIdx) _
  have hp1 : evalPolynomials n 4 D (computeCoefficients s.basis P) 1 = (fun _ => 0) := by
    funext d
    unfold evalPolynomials
    rw [dif_pos (segIdx_lt hn 1)]
    simp only [segIdx_one hn, one_pow, one_mul]
    unfold computeCoefficients
    simp only [Matrix.mul_apply]
    rw [Finset.sum_comm]
    apply Finset.sum_eq_zero
    intro cIdx _
    rw [← Finset.sum_mul]
    exact mul_eq_zero_of_left (basis_last_block_sum_zero hn hB cIdx) _
  refine ⟨hp0, hp1, ?_, ?_⟩
  · funext d
    show evalStraightLine D 0 s.p s.q d +
        evalPolynomials n 4 D (computeCoefficients s.basis P) 0 d = s.p d
    rw [congrFun hp0 d]
    simp [evalStraightLine]
  · funext d
    show evalStraightLine D 1 s.p s.q d +
        evalPolynomials n 4 D (computeCoefficients s.basis P) 1 d = s.q d
    rw [congrFun hp1 d]
    simp [evalStraightLine]

/-- A concrete null-space basis for `num_edges = 1` (columns `(0,1,-1,0)` and
`(0,1,0,-1)`: first entry zero, entries summing to zero). -/
def B1 : Matrix (Fin (4 * 1)) (Fin (1 + 1)) ℚ := fun i j =>
  if (i : ℕ) = 1 then 1
  else if (i : ℕ) = 2 ∧ (j : ℕ) = 0 then -1
  else if (i : ℕ) = 3 ∧ (j : ℕ) = 1 then -1
  else 0

theorem sum_fin_four_mul_one {M : Type} [AddCommMonoid M] (f : Fin (4 * 1) → M) :
    ∑ i, f i = f ⟨0, by omega⟩ + f ⟨1, by omega⟩ + f ⟨2, by omega⟩ + f ⟨3, by omega⟩ :=
  Fin.sum_univ_four f

/-- A concrete parameter matrix for the C1 witness. -/
def Pw : Matrix (Fin (1 + 1)) (Fin 1) ℚ := !![2; 5]

theorem B1_nullbasis : NullBasis 1 B1 := by
  intro j
  funext r
  simp only [Matrix.mulVec, Matrix.dotProduct, Pi.zero_apply]
  rw [sum_fin_four_mul_one]
  fin_cases r <;> fin_cases j <;>
    norm_num [constraints, endRow0, endRow1, B1]

/-- Witness for C1: `num_edges = 1`, `p = [3]`, `q = [7]`, basis `B1`,
parameters `Pw`. -/
theorem endpoint_interpolation_witness :
    NullBasis 1 B1 ∧
      (evaluate 1 1 ⟨![3], ![7], B1⟩ 0 Pw).point = ![3] ∧
      (evaluate 1 1 ⟨![3], ![7], B1⟩ 1 Pw).point = ![7] :=
  ⟨B1_nullbasis, (endpoint_interpolation 1 1 (by decide) ⟨![3], ![7], B1⟩ B1_nullbasis Pw).2.2⟩

/-- Value of segment `k`'s cubic at the (global) time `t`: the monomial
contraction of `_eval_polynomials` with the segment forced to `k`. -/
def segmentValue (n D : ℕ) (coeffs : Fin n → Fin 4 → Fin D → ℚ) (k : Fin n) (t : ℚ) :
    Fin D → ℚ :=
  fun d => ∑ j : Fin 4, t ^ (j : ℕ) * coeffs k j d

/-- First derivative of segment `k`'s cubic at `t` — `c₁ + 2 t c₂ + 3 t² c₃`,
which is also what `_curve_t`'s `arange(1, 4)`-scaled coefficients evaluate
to on segment `k`. -/
def segmentDeriv (n D : ℕ) (coeffs : Fin n → Fin 4 → Fin D → ℚ) (k : Fin n) (t : ℚ) :
    Fin D → ℚ :=
  fun d => coeffs k 1 d + 2 * t * coeffs k 2 d + 3 * t ^ 2 * coeffs k 3 d

/-- Second derivative (of calculus) of segment `k`'s cubic
`c₀ + c₁ t + c₂ t² + c₃ t³`, namely `2 c₂ + 6 t c₃` — the quantity whose
continuity at interior knots the spec asserts. -/
def segmentDeriv2 (n D : ℕ) (coeffs : Fin n → Fin 4 → Fin D → ℚ) (k : Fin n) (t : ℚ) :
    Fin D → ℚ :=
  fun d => 2 * coeffs k 2 d + 6 * t * coeffs k 3 d

/-- First generator of the null space of `constraints 2`
(the solution with `x₁ = 1`, `x₂ = x₃ = 0`). -/
def w1 : Fin (4 * 2) → ℚ := fun i =>
  if (i : ℕ) = 1 then 1 else if (i : ℕ) = 4 then -1/4 else if (i : ℕ) = 5 then 5/4
  else if (i : ℕ) = 6 then 2 else if (i : ℕ) = 7 then -3 else 0

/-- Second generator of the null space of `constraints 2`
(the solution with `x₂ = 1`, `x₁ = x₃ = 0`). -/
def w2 : Fin (4 * 2) → ℚ := fun i =>
  if (i : ℕ) = 2 then 1 else if (i : ℕ) = 4 then -1/4 else if (i : ℕ) = 5 then 1/4
  else if (i : ℕ) = 6 then 3 else if (i : ℕ) = 7 then -3 else 0

/-- Third generator of the null space of `constraints 2`
(the solution with `x₃ = 1`, `x₁ = x₂ = 0`). -/
def w3 : Fin (4 * 2) → ℚ := fun i =>
  if (i : ℕ) = 3 then 1 else if (i : ℕ) = 4 then -1/4 else if (i : ℕ) = 5 then 1/4
  else if (i : ℕ) = 6 then 2 else if (i : ℕ) = 7 then -2 else 0

/-- The three null-space generators as a family. -/
def wvec : Fin (2 + 1) → (Fin (4 * 2) → ℚ) := fun j =>
  if (j : ℕ) = 0 then w1 else if (j : ℕ) = 1 then w2 else w3

/-- A flattened coefficient vector satisfying every constraint row of
`constraints 2` whose (calculus) second derivative jumps at the interior knot
`t = 1/2`: segments `(0, 0, 2, -3)` and `(1/4, -1/4, 0, 0)`. -/
def vjump : Fin (4 * 2) → ℚ := fun i =>
  if (i : ℕ) = 2 then 2 else if (i : ℕ) = 3 then -3
  else if (i : ℕ) = 4 then 1/4 else if (i : ℕ) = 5 then -1/4 else 0

theorem zerothFill_apply (t : ℚ) (j : Fin 4) :
    zerothFill t j = if (j : ℕ) = 0 then 1 else if (j : ℕ) = 1 then t
      else if (j : ℕ) = 2 then t ^ 2 else t ^ 3 := by
  fin_cases j <;> rfl

theorem firstFill_apply (t : ℚ) (j : Fin 4) :
    firstFill t j = if (j : ℕ) = 0 then 0 else if (j : ℕ) = 1 then 1
      else if (j : ℕ) = 2 then 2 * t else 3 * t ^ 2 := by
  fin_cases j <;> rfl

theorem secondFill_apply (t : ℚ) (j : Fin 4) :
    secondFill t j = if (j : ℕ) = 0 then 0 else if (j : ℕ) = 1 then 0
      else if (j : ℕ) = 2 then 6 * t else 2 := by
  fin_cases j <;> rfl

theorem sum_fin_eight_mul_two {M : Type} [AddCommMonoid M] (f : Fin (4 * 2) → M) :
    ∑ i, f i = f ⟨0, by omega⟩ + f ⟨1, by omega⟩ + f ⟨2, by omega⟩ + f ⟨3, by omega⟩ +
      f ⟨4, by omega⟩ + f ⟨5, by omega⟩ + f ⟨6, by omega⟩ + f ⟨7, by omega⟩ :=
  Fin.sum_univ_eight f

theorem sum_fin_three_two_add_one {M : Type} [AddCommMonoid M] (f : Fin (2 + 1) → M) :
    ∑ i, f i = f ⟨0, by omega⟩ + f ⟨1, by omega⟩ + f ⟨2, by omega⟩ :=
  Fin.sum_univ_three f

set_option maxHeartbeats 1600000 in
/-- Every vector annihilated by `constraints 2` is the linear combination of
`w1`, `w2`, `w3` with coefficients its own coordinates 1, 2, 3: for two
segments the five constraint rows determine the null space exactly. -/
theorem nullspace_char (x : Fin (4 * 2) → ℚ) (hx : (constraints 2).mulVec x = 0) :
    ∀ i : Fin (4 * 2), x i =
      x ⟨1, by omega⟩ * w1 i + x ⟨2, by omega⟩ * w2 i + x ⟨3, by omega⟩ * w3 i := by
  have e0 := congrFun hx ⟨0, by omega⟩
  have e1 := congrFun hx ⟨1, by omega⟩
  have e2 := congrFun hx ⟨2, by omega⟩
  have e3 := congrFun hx ⟨3, by omega⟩
  have e4 := congrFun hx ⟨4, by omega⟩
  simp only [Matrix.mulVec, Matrix.dotProduct, Pi.zero_apply] at e0 e1 e2 e3 e4
  rw [sum_fin_eight_mul_two] at e0 e1 e2 e3 e4
  norm_num [constraints, endRow0, endRow1, contRow, zerothFill_apply, firstFill_apply,
    secondFill_apply, knot] at e0 e1 e2 e3 e4
  intro i
  fin_cases i <;> norm_num [w1, w2, w3] <;> linarith [e0, e1, e2, e3, e4]

/-- The jump vector `vjump` satisfies all five constraint rows of the
two-segment system (including the `[0, 0, 6t, 2]` row the source uses in
place of second-derivative continuity). -/
theorem vjump_null : (constraints 2).mulVec vjump = 0 := by
  funext r
  simp only [Matrix.mulVec, Matrix.dotProduct, Pi.zero_apply]
  rw [sum_fin_eight_mul_two]
  fin_cases r <;>
    norm_num [constraints, endRow0, endRow1, contRow, zerothFill_apply, firstFill_apply,
      secondFill_apply, knot, vjump]

/-- If every column of `B` is annihilated by the constraint matrix then so is
every column of `B * P`: projected coefficients inherit all constraints. -/
theorem product_column_null {n D : ℕ} {B : Matrix (Fin (4 * n)) (Fin (n + 1)) ℚ}
    (hB : NullBasis n B) (P : Matrix (Fin (n + 1)) (Fin D) ℚ) (d : Fin D) :
    (constraints n).mulVec (fun i => (B * P) i d) = 0 := by
  funext r
  simp only [Matrix.mulVec, Matrix.dotProduct, Matrix.mul_apply, Pi.zero_apply]
  have hsum : ∀ j, ∑ i, constraints n r i * B i j = 0 := fun j => by
    have h := congrFun (hB j) r
    simpa [Matrix.mulVec, Matrix.dotProduct] using h
  calc ∑ i, constraints n r i * ∑ j, B i j * P j d
      = ∑ i, ∑ j, constraints n r i * (B i j * P j d) :=
        Finset.sum_congr rfl fun i _ => Finset.mul_sum _ _ _
    _ = ∑ j, ∑ i, constraints n r i * (B i j * P j d) := Finset.sum_comm
    _ = ∑ j, (∑ i, constraints n r i * B i j) * P j d := by
        refine Finset.sum_congr rfl fun j _ => ?_
        rw [Finset.sum_mul]
        exact Finset.sum_congr rfl fun i _ => by ring
    _ = 0 := by
        refine Finset.sum_eq_zero fun j _ => ?_
        rw [hsum j, zero_mul]

/-- C2 (refutation of the second-derivative part): for every basis whose
columns the SVD extraction could return — columns annihilated by the
constraint matrix and linearly independent (orthonormality implies this) —
there is a parameter matrix on which the projected coefficients' calculus
second derivative at the interior knot `t = 1/2` differs between segment 0
and segment 1.  The source's `[0, 0, 6t, 2]` row (line 83) is not the
second-derivative row `[0, 0, 2, 6t]`, so the null space contains
second-derivative-discontinuous coefficient vectors. -/
theorem second_derivative_discontinuity :
    ∀ B : Matrix (Fin (4 * 2)) (Fin (2 + 1)) ℚ, NullBasis 2 B →
      (∀ g : Fin (2 + 1) → ℚ, ∑ j, g j • (fun i => B i j) = 0 → ∀ j, g j = 0) →
      ∃ P : Matrix (Fin (2 + 1)) (Fin 1) ℚ,
        segmentDeriv2 2 1 (computeCoefficients B P) ⟨0, by omega⟩ (1/2) ≠
          segmentDeriv2 2 1 (computeCoefficients B P) ⟨1, by omega⟩ (1/2) := by
  intro B hB hInd
  have hW : ∀ x : Fin (4 * 2) → ℚ, (constraints 2).mulVec x = 0 →
      x ∈ Submodule.span ℚ (Set.range wvec) := by
    intro x hx
    rw [mem_span_range_iff_exists_fun]
    refine ⟨![x ⟨1, by omega⟩, x ⟨2, by omega⟩, x ⟨3, by omega⟩], ?_⟩
    rw [sum_fin_three_two_add_one]
    funext i
    have hch := nullspace_char x hx i
    simp only [Pi.add_apply, Pi.smul_apply, smul_eq_mul]
    have hc0 : (![x ⟨1, by omega⟩, x ⟨2, by omega⟩, x ⟨3, by omega⟩] :
        Fin (2 + 1) → ℚ) ⟨0, by omega⟩ = x ⟨1, by omega⟩ := rfl
    have hc1 : (![x ⟨1, by omega⟩, x ⟨2, by omega⟩, x ⟨3, by omega⟩] :
        Fin (2 + 1) → ℚ) ⟨1, by omega⟩ = x ⟨2, by omega⟩ := rfl
    have hc2 : (![x ⟨1, by omega⟩, x ⟨2, by omega⟩, x ⟨3, by omega⟩] :
        Fin (2 + 1) → ℚ) ⟨2, by omega⟩ = x ⟨3, by omega⟩ := rfl
    have hw0 : wvec ⟨0, by omega⟩ = w1 := rfl
    have hw1 : wvec ⟨1, by omega⟩ = w2 := rfl
    have hw2 : wvec ⟨2, by omega⟩ = w3 := rfl
    rw [hc0, hc1, hc2, hw0, hw1, hw2]
    linear_combination -hch
  have hBind : LinearIndependent ℚ (fun j : Fin (2 + 1) => (fun i => B i j)) :=
    Fintype.linearIndependent_iff.mpr hInd
  have hle : Submodule.span ℚ (Set.range (fun j : Fin (2 + 1) => (fun i => B i j))) ≤
      Submodule.span ℚ (Set.range wvec) := by
    rw [Submodule.span_le]
    rintro y ⟨j, rfl⟩
    exact hW _ (hB j)
  have hfr1 : Module.finrank ℚ
      (Submodule.span ℚ (Set.range (fun j : Fin (2 + 1) => (fun i => B i j)))) = 3 := by
    rw [finrank_span_eq_card hBind]
    simp
  have hfr2 : Module.finrank ℚ (Submodule.span ℚ (Set.range wvec)) ≤ 3 := by
    have h := finrank_range_le_card (R := ℚ) wvec
    simpa [Set.finrank] using h
  have heq : Submodule.span ℚ (Set.range (fun j : Fin (2 + 1) => (fun i => B i j))) =
      Submodule.span ℚ (Set.range wvec) := by
    apply Submodule.eq_of_le_of_finrank_le hle
    rw [hfr1]
    exact hfr2
  have hv : vjump ∈ Submodule.span ℚ
      (Set.range (fun j : Fin (2 + 1) => (fun i => B i j))) := by
    rw [heq]
    exact hW vjump vjump_null
  rw [mem_span_range_iff_exists_fun] at hv
  obtain ⟨c, hc⟩ := hv
  refine ⟨Matrix.of fun j _ => c j, ?_⟩
  have hcoef : ∀ i : Fin (4 * 2),
      ((B * Matrix.of fun j _ => c j : Matrix (Fin (4 * 2)) (Fin 1) ℚ))
        i ⟨0, by omega⟩ = vjump i := by
    intro i
    have h := congrFun hc i
    rw [sum_fin_three_two_add_one] at h
    simp only [Pi.add_apply, Pi.smul_apply, smul_eq_mul] at h
    rw [Matrix.mul_apply, sum_fin_three_two_add_one]
    simp only [Matrix.of_apply]
    linear_combination h
  intro heq2
  have h2 := congrFun heq2 ⟨0, by omega⟩
  simp only [segmentDeriv2, computeCoefficients] at h2
  simp only [hcoef] at h2
  norm_num [vjump, show ((2 : Fin 4) : ℕ) = 2 from rfl, show ((3 : Fin 4) : ℕ) = 3 from rfl]
    at h2

/-- The matrix whose columns are the null-space generators `w1`, `w2`, `w3`. -/
def Bw : Matrix (Fin (4 * 2)) (Fin (2 + 1)) ℚ := fun i j => wvec j i

set_option maxHeartbeats 1600000 in
theorem Bw_nullbasis : NullBasis 2 Bw := by
  intro j
  funext r
  simp only [Matrix.mulVec, Matrix.dotProduct, Pi.zero_apply, Bw]
  rw [sum_fin_eight_mul_two]
  fin_cases j <;> fin_cases r <;>
    norm_num [wvec, w1, w2, w3, constraints, endRow0, endRow1, contRow,
      zerothFill_apply, firstFill_apply, secondFill_apply, knot]

theorem Bw_indep :
    ∀ g : Fin (2 + 1) → ℚ, ∑ j, g j • (fun i => Bw i j) = 0 → ∀ j, g j = 0 := by
  intro g hg
  rw [sum_fin_three_two_add_one] at hg
  have h1 := congrFun hg ⟨1, by omega⟩
  have h2 := congrFun hg ⟨2, by omega⟩
  have h3 := congrFun hg ⟨3, by omega⟩
  simp only [Pi.add_apply, Pi.smul_apply, smul_eq_mul, Pi.zero_apply, Bw] at h1 h2 h3
  norm_num [wvec, w1, w2, w3] at h1 h2 h3
  intro j
  fin_cases j
  · exact h1
  · exact h2
  · exact h3

/-- Witness for C2: the concrete basis `Bw` satisfies both hypotheses of
`second_derivative_discontinuity`, and the jump follows. -/
theorem second_derivative_discontinuity_witness :
    NullBasis 2 Bw ∧
      ∃ P : Matrix (Fin (2 + 1)) (Fin 1) ℚ,
        segmentDeriv2 2 1 (computeCoefficients Bw P) ⟨0, by omega⟩ (1/2) ≠
          segmentDeriv2 2 1 (computeCoefficients Bw P) ⟨1, by omega⟩ (1/2) :=
  ⟨Bw_nullbasis, second_derivative_discontinuity Bw Bw_nullbasis Bw_indep⟩

set_option maxHeartbeats 1600000 in
/-- The two continuity conditions the constraint rows do enforce at the
interior knot `t = 1/2` of the two-segment system: the value and the first
derivative of the projected coefficients agree between segment 0 and
segment 1, for every null basis and every parameter matrix. -/
theorem knot_continuity_value_first {B : Matrix (Fin (4 * 2)) (Fin (2 + 1)) ℚ}
    (hB : NullBasis 2 B) (P : Matrix (Fin (2 + 1)) (Fin 1) ℚ) :
    segmentValue 2 1 (computeCoefficients B P) ⟨0, by omega⟩ (1/2) =
      segmentValue 2 1 (computeCoefficients B P) ⟨1, by omega⟩ (1/2) ∧
      segmentDeriv 2 1 (computeCoefficients B P) ⟨0, by omega⟩ (1/2) =
        segmentDeriv 2 1 (computeCoefficients B P) ⟨1, by omega⟩ (1/2) := by
  have hx := product_column_null hB P ⟨0, by omega⟩
  have hch : ∀ i : Fin (4 * 2), (B * P) i ⟨0, by omega⟩ =
      (B * P) ⟨1, by omega⟩ ⟨0, by omega⟩ * w1 i +
        (B * P) ⟨2, by omega⟩ ⟨0, by omega⟩ * w2 i +
        (B * P) ⟨3, by omega⟩ ⟨0, by omega⟩ * w3 i :=
    nullspace_char (fun i => (B * P) i ⟨0, by omega⟩) hx
  have q00 : computeCoefficients B P ⟨0, by omega⟩ 0 ⟨0, by omega⟩ =
      (B * P) ⟨0, by omega⟩ ⟨0, by omega⟩ := rfl
  have q01 : computeCoefficients B P ⟨0, by omega⟩ 1 ⟨0, by omega⟩ =
      (B * P) ⟨1, by omega⟩ ⟨0, by omega⟩ := rfl
  have q02 : computeCoefficients B P ⟨0, by omega⟩ 2 ⟨0, by omega⟩ =
      (B * P) ⟨2, by omega⟩ ⟨0, by omega⟩ := rfl
  have q03 : computeCoefficients B P ⟨0, by omega⟩ 3 ⟨0, by omega⟩ =
      (B * P) ⟨3, by omega⟩ ⟨0, by omega⟩ := rfl
  have q10 : computeCoefficients B P ⟨1, by omega⟩ 0 ⟨0, by omega⟩ =
      (B * P) ⟨4, by omega⟩ ⟨0, by omega⟩ := rfl
  have q11 : computeCoefficients B P ⟨1, by omega⟩ 1 ⟨0, by omega⟩ =
      (B * P) ⟨5, by omega⟩ ⟨0, by omega⟩ := rfl
  have q12 : computeCoefficients B P ⟨1, by omega⟩ 2 ⟨0, by omega⟩ =
      (B * P) ⟨6, by omega⟩ ⟨0, by omega⟩ := rfl
  have q13 : computeCoefficients B P ⟨1, by omega⟩ 3 ⟨0, by omega⟩ =
      (B * P) ⟨7, by omega⟩ ⟨0, by omega⟩ := rfl
  constructor <;> funext d <;>
    · have hd : d = ⟨0, by omega⟩ := Subsingleton.elim _ _
      subst hd
      have g0 := hch ⟨0, by omega⟩
      have g4 := hch ⟨4, by omega⟩
      have g5 := hch ⟨5, by omega⟩
      have g6 := hch ⟨6, by omega⟩
      have g7 := hch ⟨7, by omega⟩
      norm_num [w1, w2, w3] at g0 g4 g5 g6 g7
      simp only [segmentValue, segmentDeriv, Fin.sum_univ_four]
      simp only [q00, q01, q02, q03, q10, q11, q12, q13]
      norm_num [show ((0 : Fin 4) : ℕ) = 0 from rfl, show ((1 : Fin 4) : ℕ) = 1 from rfl,
        show ((2 : Fin 4) : ℕ) = 2 from rfl, show ((3 : Fin 4) : ℕ) = 3 from rfl]
      linarith [g0, g4, g5, g6, g7]

end Riemax
